import Mathlib

/-!
EasyMeta-App/storage: the mongo convenience layer.

A shallow embedding of three functions of package mongo:

* decode (mongo.go), the reflective cursor decoder,
* Collection.Index (collection.go), the index reconciler,
* Collection.Count (collection.go).

The mongo driver, the bson package and reflect are external.  What the
functions observe of them is modelled by small value types: a cursor is the
list of documents Next yields plus the error Err reports afterwards, a
reflect.Value is one of five shapes, and a bson.M is the list of its entries in
the order a range statement visits them.
-/

set_option autoImplicit false

namespace Mongo

/-! ## reflect: kinds, values and the decode target -/

/-- The kinds of reflect.Kind, in the order of the Go declaration. -/
inductive Kind
  | Invalid | Bool | Int | Int8 | Int16 | Int32 | Int64
  | Uint | Uint8 | Uint16 | Uint32 | Uint64 | Uintptr
  | Float32 | Float64 | Complex64 | Complex128
  | Array | Chan | Func | Interface | Map | Ptr | Slice | String | Struct
  | UnsafePointer
  deriving DecidableEq, Repr

/-- The kinds of values that are neither slices, pointers nor interfaces. -/
inductive PlainKind
  | Bool | Int | Int8 | Int16 | Int32 | Int64
  | Uint | Uint8 | Uint16 | Uint32 | Uint64 | Uintptr
  | Float32 | Float64 | Complex64 | Complex128
  | Array | Chan | Func | Map | String | Struct | UnsafePointer
  deriving DecidableEq, Repr

/-- The reflect.Kind of a plain kind. -/
def PlainKind.toKind : PlainKind → Kind
  | .Bool => .Bool | .Int => .Int | .Int8 => .Int8 | .Int16 => .Int16
  | .Int32 => .Int32 | .Int64 => .Int64
  | .Uint => .Uint | .Uint8 => .Uint8 | .Uint16 => .Uint16
  | .Uint32 => .Uint32 | .Uint64 => .Uint64 | .Uintptr => .Uintptr
  | .Float32 => .Float32 | .Float64 => .Float64
  | .Complex64 => .Complex64 | .Complex128 => .Complex128
  | .Array => .Array | .Chan => .Chan | .Func => .Func | .Map => .Map
  | .String => .String | .Struct => .Struct | .UnsafePointer => .UnsafePointer

/-- A Go value that is not a pointer and not an interface: a slice with its
elements, or a value of another kind (its contents abbreviated to a number). -/
inductive Basic (α : Type)
  | slice (xs : List α)
  | plain (k : PlainKind) (repr : Nat)
  deriving DecidableEq, Repr

/-- A concrete Go value as a variable or an interface can hold it. -/
inductive GoValue (α : Type)
  | basic (b : Basic α)
  | pointer (addr : Nat)
  deriving DecidableEq, Repr

/-- The contents of the variable a pointer refers to: a variable of a concrete
type, or a variable of interface type holding nil or a concrete value. -/
inductive Var (α : Type)
  | concrete (v : GoValue α)
  | iface (dyn : Option (GoValue α))
  deriving DecidableEq, Repr

/-- The argument results of decode, of type interface: untyped nil, a value
that is not a pointer, a nil pointer, or a pointer to a variable. -/
inductive Target (α : Type)
  | untypedNil
  | direct (b : Basic α)
  | nilPtr
  | ptr (x : Var α)
  deriving DecidableEq, Repr

/-- The shapes of reflect.Value that decode meets. -/
inductive Value (α : Type)
  | zero
  | ofBasic (b : Basic α)
  | ofPtr (p : Option (Var α))
  | deref (x : Var α)
  | held (v : GoValue α)
  deriving DecidableEq, Repr

/-- The function reflect.ValueOf on the argument results. -/
def ValueOf {α : Type} : Target α → Value α
  | .untypedNil => .zero
  | .direct b => .ofBasic b
  | .nilPtr => .ofPtr none
  | .ptr x => .ofPtr (some x)

/-- The kind of a basic value. -/
def Basic.Kind {α : Type} : Basic α → Kind
  | .slice _ => .Slice
  | .plain k _ => k.toKind

/-- The kind of a concrete value. -/
def GoValue.Kind {α : Type} : GoValue α → Kind
  | .basic b => b.Kind
  | .pointer _ => .Ptr

/-- The kind of a variable: Interface for a variable of interface type. -/
def Var.Kind {α : Type} : Var α → Kind
  | .concrete v => v.Kind
  | .iface _ => .Interface

/-- The method reflect.Value.Kind. -/
def Value.Kind {α : Type} : Value α → Kind
  | .zero => .Invalid
  | .ofBasic b => b.Kind
  | .ofPtr _ => .Ptr
  | .deref x => x.Kind
  | .held v => v.Kind

/-- The method reflect.Value.Elem, where decode calls it: on a pointer it is
the variable pointed to (the zero Value for a nil pointer), on an interface
the value held (the zero Value for a nil interface). -/
def Value.Elem {α : Type} : Value α → Value α
  | .ofPtr (some x) => .deref x
  | .ofPtr none => .zero
  | .deref (.iface (some v)) => .held v
  | .deref (.iface none) => .zero
  | v => v

/-- The method reflect.Value.CanSet: only the variable behind a pointer is
addressable; a value taken out of an interface is not. -/
def Value.CanSet {α : Type} : Value α → Bool
  | .deref _ => true
  | _ => false

/-- The elements of a Value of kind Slice. -/
def Value.elems {α : Type} : Value α → List α
  | .ofBasic (.slice xs) => xs
  | .deref (.concrete (.basic (.slice xs))) => xs
  | .held (.basic (.slice xs)) => xs
  | _ => []

/-! ## The cursor -/

/-- A mongo.Cursor as decode observes it: docs are the documents for which
Next returns true, in order; err is what Err reports once Next has returned
false; closed records a call of Close. -/
structure Cursor (D E : Type) where
  docs : List D
  err : Option E
  closed : Bool
  deriving DecidableEq, Repr

/-- The method Cursor.Close. -/
def Cursor.Close {D E : Type} (cur : Cursor D E) : Cursor D E :=
  ⟨cur.docs, cur.err, true⟩

/-! ## decode -/

/-- The errors decode returns: the two fmt.Errorf messages, which name a kind,
and an error of the driver returned as it is. -/
inductive DecodeError (E : Type)
  | notPointer (k : Kind)
  | pointerTo (k : Kind)
  | driver (e : E)
  deriving DecidableEq, Repr

/-- How a call of decode ends: it returns nil, returns an error, or panics. -/
inductive Outcome (E : Type)
  | ok
  | error (e : DecodeError E)
  | panic
  deriving DecidableEq, Repr

/-- The state after a call of decode: how it ended, the cursor, and the
target with the contents of the variable it points to. -/
structure DecodeResult (D E α : Type) where
  outcome : Outcome E
  cursor : Cursor D E
  target : Target α
  deriving DecidableEq, Repr

/-- How the for loop of decode is left. -/
inductive LoopExit (E : Type)
  | exhausted
  | decodeFailed (e : E)
  | setPanic
  deriving DecidableEq, Repr

/-- The for loop of decode (mongo.go lines 70 to 77).  The arguments are the
documents Next has not yielded yet, the elements sliceVal holds and index.
Every round takes one document (Next), decodes it into a fresh value
(unmarshal stands for cur.Decode on reflect.New(elementType)), and on success
runs sliceVal.Set(reflect.Append(sliceVal, data.Elem())): Set panics when
sliceVal is not addressable, otherwise sliceVal holds one element more. -/
def decodeLoop {D E α : Type} (unmarshal : D → Except E α) (canSet : Bool) :
    List D → List α → Nat → LoopExit E × List D × List α × Nat
  | [], s, index => (.exhausted, [], s, index)
  | d :: rest, s, index =>
    match unmarshal d with
    | .error e => (.decodeFailed e, rest, s, index)
    | .ok a =>
      if canSet then decodeLoop unmarshal canSet rest (s ++ [a]) (index + 1)
      else (.setPanic, rest, s, index)

/-- The target after the variable behind the pointer was set to a slice:
a variable of interface type then holds that slice. -/
def Target.setElem {α : Type} (results : Target α) (xs : List α) : Target α :=
  match results with
  | .ptr (.concrete _) => .ptr (.concrete (.basic (.slice xs)))
  | .ptr (.iface _) => .ptr (.iface (some (.basic (.slice xs))))
  | t => t

/-- The function decode of mongo.go.  The two checks return before the defer
statement is reached, so they leave the cursor as it is; after it, every exit
(return or panic) closes the cursor.  When sliceVal is addressable it is the
variable of the caller, so what the loop set is what the caller sees. -/
def decode {D E α : Type} (unmarshal : D → Except E α) (cur : Cursor D E)
    (results : Target α) : DecodeResult D E α :=
  let resultsVal := ValueOf results
  if resultsVal.Kind ≠ Kind.Ptr then
    ⟨.error (.notPointer resultsVal.Kind), cur, results⟩
  else
    let sliceVal := resultsVal.Elem
    let sliceVal := if sliceVal.Kind = Kind.Interface then sliceVal.Elem else sliceVal
    if sliceVal.Kind ≠ Kind.Slice then
      ⟨.error (.pointerTo sliceVal.Kind), cur, results⟩
    else
      match decodeLoop unmarshal sliceVal.CanSet cur.docs sliceVal.elems 0 with
      | (exit, rest, s, index) =>
        let closed : Cursor D E := Cursor.Close ⟨rest, cur.err, cur.closed⟩
        let seen := if sliceVal.CanSet then results.setElem s else results
        match exit with
        | .setPanic => ⟨.panic, closed, seen⟩
        | .decodeFailed e => ⟨.error (.driver e), closed, seen⟩
        | .exhausted =>
          match cur.err with
          | some e => ⟨.error (.driver e), closed, seen⟩
          | none => ⟨.ok, closed, results.setElem (s.take index)⟩

/-! ## bson values -/

/-- A value stored under a field of an index key document: a number (an index
direction such as 1 or -1), a string (such as text) or a boolean. -/
inductive Scalar
  | int (i : Int)
  | str (s : String)
  | bool (b : Bool)
  deriving DecidableEq, Repr

/-- The verb %v of fmt.Sprintf on such a value. -/
def Scalar.format : Scalar → String
  | .int i => toString i
  | .str s => s
  | .bool b => if b then "true" else "false"

/-- A value of type interface as a bson.M holds it under a string key: nil,
a scalar, a bson.D (its elements in order) or a bson.M.  A bson.M is a Go map;
it is given by its entries in the order in which a range statement over it
visits them, an order the Go runtime chooses anew for every loop. -/
inductive Dyn
  | nil
  | scalar (v : Scalar)
  | D (pairs : List (String × Scalar))
  | M (entries : List (String × Scalar))
  deriving DecidableEq, Repr

/-- The call fmt.Sprintf("%v:%v", k, v). -/
def token (p : String × Scalar) : String :=
  p.1 ++ ":" ++ p.2.format

/-- The call strings.Join(keys, "_"). -/
def joinKeys (keys : List String) : String :=
  "_".intercalate keys

/-! ## Collection.Index -/

/-- An index document as the cursor of Indexes().List decodes it into a
bson.M: the values index["key"] and index["name"]. -/
structure IndexDoc where
  key : Dyn
  name : Dyn
  deriving DecidableEq, Repr

/-- One argument val of Index, a bson.M: the value val["keys"] (nil when the
entry is absent) and the entry val["unique"] (none when it is absent). -/
structure IndexSpec where
  keys : Dyn
  unique : Option Dyn
  deriving DecidableEq, Repr

/-- The fields of options.IndexOptions that Index sets; a field not set is
none. -/
structure IndexOptions where
  Name : Option String
  Unique : Option Bool
  deriving DecidableEq, Repr

/-- The type mongo.IndexModel. -/
structure IndexModel where
  Keys : Dyn
  Options : IndexOptions
  deriving DecidableEq, Repr

/-- Lines 37 to 45 of collection.go: the key under which an existing index is
recorded.  The result is none when a type assertion panics: index["key"] is
not a bson.M, or the joined key is empty and index["name"] is not a string. -/
def existingKey (index : IndexDoc) : Option String :=
  match index.key with
  | .M entries =>
    let key := joinKeys (entries.map token)
    if key = "" then
      match index.name with
      | .scalar (.str name) => some name
      | _ => none
    else some key
  | _ => none

/-- The first loop of Index (lines 31 to 49): the keys of the map indexes,
filled from the index documents the store lists. -/
def listIndexes : List IndexDoc → List String → Option (List String)
  | [], indexes => some indexes
  | index :: rest, indexes =>
    match existingKey index with
    | none => none
    | some key =>
      if key ∈ indexes then listIndexes rest indexes
      else listIndexes rest (indexes ++ [key])

/-- Lines 54 to 65: the joined key of a desired index.  The two type
assertions on val["keys"] each add their tokens; at most one succeeds. -/
def specKey (val : IndexSpec) : String :=
  let keys : List String := []
  let keys := match val.keys with
    | .D vs => keys ++ vs.map token
    | _ => keys
  let keys := match val.keys with
    | .M vs => keys ++ vs.map token
    | _ => keys
  joinKeys keys

/-- Lines 69 to 72: the options of the index to create.  The result is none
when val["unique"] is present and the type assertion v.(bool) panics. -/
def indexOptions (key : String) (val : IndexSpec) : Option IndexOptions :=
  match val.unique with
  | none => some ⟨some key, none⟩
  | some (.scalar (.bool true)) => some ⟨some key, some true⟩
  | some (.scalar (.bool false)) => some ⟨some key, none⟩
  | some _ => none

/-- The second loop of Index (lines 51 to 77): the list newIndexes, built from
the keys of the map indexes and the arguments.  The map indexes is only read
in this loop.  The result is none when the loop panics. -/
def newIndexes (indexes : List String) :
    List IndexSpec → List IndexModel → Option (List IndexModel)
  | [], acc => some acc
  | val :: rest, acc =>
    let key := specKey val
    if key ∈ indexes then newIndexes indexes rest acc
    else
      match indexOptions key val with
      | none => none
      | some opts => newIndexes indexes rest (acc ++ [⟨val.keys, opts⟩])

/-- The creation list Index builds from the index documents the store lists
and the arguments: both loops in sequence. -/
def creationList (existing : List IndexDoc) (keys : List IndexSpec) :
    Option (List IndexModel) :=
  match listIndexes existing [] with
  | none => none
  | some indexes => newIndexes indexes keys []

/-- How a call of Index ends. -/
inductive IndexOutcome (E : Type)
  | panic
  | returned (names : List String) (err : Option E)
  deriving DecidableEq, Repr

/-- The method Collection.Index.  The store is given by what Indexes().List
answers and by the function CreateMany; the result of CreateMany is returned
as it is, and CreateMany is not called for an empty creation list. -/
def Index {E : Type} (list : Except E (List IndexDoc))
    (CreateMany : List IndexModel → List String × Option E)
    (keys : List IndexSpec) : IndexOutcome E :=
  match list with
  | .error err => .returned [] (some err)
  | .ok existing =>
    match creationList existing keys with
    | none => .panic
    | some models =>
      if models.length = 0 then .returned [] none
      else .returned (CreateMany models).1 (CreateMany models).2

/-! ## Collection.Count -/

/-- The method Collection.Count.  The store is the function CountDocuments,
which returns a value and an error as the Go method does; a nil filter is
replaced by the empty bson.D before the call. -/
def Count {V Opts E : Type}
    (CountDocuments : List (String × V) → Opts → Int × Option E)
    (filter : Option (List (String × V))) (opts : Opts) : Int :=
  let filter := match filter with
    | none => []
    | some f => f
  match CountDocuments filter opts with
  | (v, none) => v
  | (_, some _) => 0

/-! ## Vocabulary of the statements -/

/-- A target decode accepts: a pointer to a slice, or a pointer to a variable
of interface type that holds a slice. -/
def Target.pointsToSlice {α : Type} : Target α → Bool
  | .ptr (.concrete (.basic (.slice _))) => true
  | .ptr (.iface (some (.basic (.slice _)))) => true
  | _ => false

/-- A decoder for the concrete runs: the document 0 does not decode (error
99), every other document d decodes to the element 10 * d. -/
def sampleUnmarshal (d : Nat) : Except Nat Nat :=
  if d = 0 then .error 99 else .ok (10 * d)

/-- The entry val["unique"] is absent or holds a boolean. -/
def IndexSpec.uniqueIsBool (val : IndexSpec) : Bool :=
  match val.unique with
  | none => true
  | some (.scalar (.bool _)) => true
  | some _ => false

/-- The value val["keys"] is a bson.D, an ordered list of (field, direction)
pairs, and val["unique"] is absent or a boolean. -/
def IndexSpec.ordered (val : IndexSpec) : Bool :=
  (match val.keys with
    | .D _ => true
    | _ => false) && val.uniqueIsBool

/-- The (field, direction) pairs of a desired index given as a bson.D. -/
def IndexSpec.pairs (val : IndexSpec) : List (String × Scalar) :=
  match val.keys with
  | .D ps => ps
  | _ => []

/-- The canonical key of the specification: the tokens field:direction of the
pairs, joined in pair order with an underscore. -/
def canonicalKey (pairs : List (String × Scalar)) : String :=
  "_".intercalate (pairs.map fun p => p.1 ++ ":" ++ p.2.format)

/-- The uniqueness option of a request: set to true exactly when the entry
unique is present and true. -/
def IndexSpec.uniqueFlag (val : IndexSpec) : Option Bool :=
  if val.unique = some (.scalar (.bool true)) then some true else none

/-- The creation request of the specification for a desired index given by
ordered pairs: its key list, its canonical key as name, and the uniqueness
option. -/
def request (val : IndexSpec) : IndexModel :=
  ⟨.D val.pairs, ⟨some (canonicalKey val.pairs), val.uniqueFlag⟩⟩

/-- The model lines 69 to 76 append for val when no type assertion panics. -/
def modelOf (val : IndexSpec) : IndexModel :=
  ⟨val.keys, ⟨some (specKey val), val.uniqueFlag⟩⟩

/-- The desired index A:1 of the examples of the specification. -/
def specA : IndexSpec :=
  ⟨.D [("A", .int 1)], none⟩

/-- The desired unique index B:1, C:-1 of the examples of the specification. -/
def specBC : IndexSpec :=
  ⟨.D [("B", .int 1), ("C", .int (-1))], some (.scalar (.bool true))⟩

/-- The request Index builds for specBC. -/
def requestBC : IndexModel :=
  ⟨.D [("B", .int 1), ("C", .int (-1))], ⟨some "B:1_C:-1", some true⟩⟩

/-- The index document of the existing index A:1. -/
def docA : IndexDoc :=
  ⟨.M [("A", .int 1)], .scalar (.str "A_1")⟩

/-- The index document of the index created from requestBC, as the store
lists it afterwards: the key document holds the two fields of the request and
the name is the name of the request.  The range statement over the decoded
map visits the field C first. -/
def docBC : IndexDoc :=
  ⟨.M [("C", .int (-1)), ("B", .int 1)], .scalar (.str "B:1_C:-1")⟩

/-- The store lists a created index so that the range statement over its
key map visits the fields in the pair order of the request: the index document
has the pairs of the request as its key entries and the name of the request
as its name. -/
def reportsInPairOrder (m : IndexModel) (doc : IndexDoc) : Prop :=
  ∃ ps name, m.Keys = .D ps ∧ m.Options.Name = some name ∧
    doc = ⟨.M ps, .scalar (.str name)⟩

/-! ## Lemmas -/

/-- No plain kind is the kind Ptr. -/
theorem PlainKind.toKind_ne_ptr (k : PlainKind) : k.toKind ≠ Kind.Ptr := by
  cases k <;> decide

/-- No plain kind is the kind Slice. -/
theorem PlainKind.toKind_ne_slice (k : PlainKind) : k.toKind ≠ Kind.Slice := by
  cases k <;> decide

/-- No plain kind is the kind Interface. -/
theorem PlainKind.toKind_ne_interface (k : PlainKind) :
    k.toKind ≠ Kind.Interface := by
  cases k <;> decide

/-- With an addressable sliceVal and documents that all decode, the loop runs
to the end and has appended every decoded element to what sliceVal held. -/
theorem decodeLoop_all_ok {D E α : Type} (unmarshal : D → Except E α)
    (decoded : D → α) (docs : List D)
    (h : ∀ d ∈ docs, unmarshal d = .ok (decoded d)) (s : List α) (index : Nat) :
    decodeLoop unmarshal true docs s index
      = (.exhausted, [], s ++ docs.map decoded, index + docs.length) := by
  induction docs generalizing s index with
  | nil => simp [decodeLoop]
  | cons d rest ih =>
    have hd : unmarshal d = .ok (decoded d) := h d (List.mem_cons_self d rest)
    have hr : ∀ x ∈ rest, unmarshal x = .ok (decoded x) :=
      fun x hx => h x (List.mem_cons_of_mem d hx)
    simp only [decodeLoop, hd, if_true]
    rw [ih hr]
    simp [Nat.add_assoc, Nat.add_comm 1]

/-- What decode does on success with a pointer to a slice: when every document
decodes and the terminal error is unset, decode returns nil with the cursor
closed, and the slice holds the first n elements of its former elements
followed by the decoded ones, n being the number of documents.  For a slice
that was empty these are exactly the decoded elements. -/
theorem decode_ptr_slice_all_ok {D E α : Type} (unmarshal : D → Except E α)
    (decoded : D → α) (docs : List D) (closed : Bool) (xs : List α)
    (h : ∀ d ∈ docs, unmarshal d = .ok (decoded d)) :
    decode unmarshal ⟨docs, none, closed⟩ (.ptr (.concrete (.basic (.slice xs))))
      = ⟨.ok, ⟨[], none, true⟩,
          .ptr (.concrete (.basic (.slice ((xs ++ docs.map decoded).take docs.length))))⟩ := by
  simp [decode, ValueOf, Value.Kind, Value.Elem, Var.Kind, GoValue.Kind,
    Basic.Kind, Value.CanSet, Value.elems, Target.setElem, Cursor.Close,
    decodeLoop_all_ok unmarshal decoded docs h]

/-- The options built for a desired index whose unique entry is absent or a
boolean. -/
theorem indexOptions_of_uniqueIsBool (key : String) (val : IndexSpec)
    (h : val.uniqueIsBool = true) :
    indexOptions key val = some ⟨some key, val.uniqueFlag⟩ := by
  obtain ⟨keys, unique⟩ := val
  cases unique with
  | none => rfl
  | some v =>
    cases v with
    | scalar sc =>
      cases sc with
      | bool b => cases b <;> rfl
      | int i => simp [IndexSpec.uniqueIsBool] at h
      | str t => simp [IndexSpec.uniqueIsBool] at h
    | nil => simp [IndexSpec.uniqueIsBool] at h
    | D ps => simp [IndexSpec.uniqueIsBool] at h
    | M es => simp [IndexSpec.uniqueIsBool] at h

/-- The second loop of Index as a filter: when no unique entry makes the type
assertion panic, the loop appends, in order, the model of every argument whose
key is not a key of the map indexes. -/
theorem newIndexes_eq_filter (indexes : List String) (keys : List IndexSpec)
    (h : ∀ val ∈ keys, val.uniqueIsBool = true) (acc : List IndexModel) :
    newIndexes indexes keys acc
      = some (acc ++ (keys.filter fun val => decide (specKey val ∉ indexes)).map modelOf) := by
  induction keys generalizing acc with
  | nil => simp [newIndexes]
  | cons val rest ih =>
    have hv : val.uniqueIsBool = true := h val (List.mem_cons_self val rest)
    have hr : ∀ x ∈ rest, x.uniqueIsBool = true :=
      fun x hx => h x (List.mem_cons_of_mem val hx)
    by_cases hk : specKey val ∈ indexes
    · simp [newIndexes, hk, ih hr]
    · simp [newIndexes, hk, ih hr, indexOptions_of_uniqueIsBool _ _ hv, modelOf]

/-- For a desired index given by ordered pairs the key the code joins is the
canonical key, and the model the code builds is the request of the
specification. -/
theorem modelOf_ordered (val : IndexSpec) (h : val.ordered = true) :
    specKey val = canonicalKey val.pairs ∧ modelOf val = request val := by
  obtain ⟨keys, unique⟩ := val
  cases keys with
  | D ps =>
    have hk : specKey ⟨.D ps, unique⟩ = canonicalKey ps := by
      simp [specKey, canonicalKey, joinKeys, token]
      rfl
    refine ⟨hk, ?_⟩
    simp [modelOf, request, hk, IndexSpec.pairs]
  | nil => simp [IndexSpec.ordered] at h
  | scalar v => simp [IndexSpec.ordered] at h
  | M es => simp [IndexSpec.ordered] at h

/-- The first loop of Index over two lists of index documents in sequence. -/
theorem listIndexes_append (docs more : List IndexDoc) (acc : List String) :
    listIndexes (docs ++ more) acc
      = (listIndexes docs acc).bind fun l => listIndexes more l := by
  induction docs generalizing acc with
  | nil => simp [listIndexes]
  | cons d rest ih =>
    cases hk : existingKey d with
    | none => simp [listIndexes, hk]
    | some k =>
      by_cases hm : k ∈ acc
      · simp [listIndexes, hk, hm, ih]
      · simp [listIndexes, hk, hm, ih]

/-- When no type assertion panics, the first loop of Index ends with the keys
it started from and the key of every index document. -/
theorem listIndexes_mem (docs : List IndexDoc) (acc : List String)
    (h : ∀ doc ∈ docs, ∃ k, existingKey doc = some k) :
    ∃ l, listIndexes docs acc = some l ∧
      ∀ k, k ∈ l ↔ k ∈ acc ∨ ∃ doc ∈ docs, existingKey doc = some k := by
  induction docs generalizing acc with
  | nil => exact ⟨acc, rfl, by simp⟩
  | cons d rest ih =>
    obtain ⟨k, hk⟩ := h d (List.mem_cons_self d rest)
    have hr : ∀ doc ∈ rest, ∃ k, existingKey doc = some k :=
      fun x hx => h x (List.mem_cons_of_mem d hx)
    by_cases hm : k ∈ acc
    · obtain ⟨l, hl, hmem⟩ := ih acc hr
      refine ⟨l, by simp [listIndexes, hk, hm, hl], ?_⟩
      intro x
      rw [hmem x]
      constructor
      · rintro (hx | ⟨doc, hd, hx⟩)
        · exact Or.inl hx
        · exact Or.inr ⟨doc, List.mem_cons_of_mem d hd, hx⟩
      · rintro (hx | ⟨doc, hd, hx⟩)
        · exact Or.inl hx
        · rcases List.mem_cons.mp hd with rfl | hd
          · rw [hk] at hx
            cases hx
            exact Or.inl hm
          · exact Or.inr ⟨doc, hd, hx⟩
    · obtain ⟨l, hl, hmem⟩ := ih (acc ++ [k]) hr
      refine ⟨l, by simp [listIndexes, hk, hm, hl], ?_⟩
      intro x
      rw [hmem x]
      constructor
      · rintro (hx | ⟨doc, hd, hx⟩)
        · rcases List.mem_append.mp hx with hx | hx
          · exact Or.inl hx
          · rw [List.mem_singleton] at hx
            exact Or.inr ⟨d, List.mem_cons_self d rest, hx ▸ hk⟩
        · exact Or.inr ⟨doc, List.mem_cons_of_mem d hd, hx⟩
      · rintro (hx | ⟨doc, hd, hx⟩)
        · exact Or.inl (List.mem_append.mpr (Or.inl hx))
        · rcases List.mem_cons.mp hd with rfl | hd
          · rw [hk] at hx
            cases hx
            exact Or.inl (List.mem_append.mpr (Or.inr (List.mem_singleton.mpr rfl)))
          · exact Or.inr ⟨doc, hd, hx⟩

/-- An index created from ordered pairs and listed in pair order is recorded
under the key of the desired index. -/
theorem existingKey_of_report (val : IndexSpec) (doc : IndexDoc)
    (h : reportsInPairOrder (modelOf val) doc) (ho : val.ordered = true) :
    existingKey doc = some (specKey val) := by
  obtain ⟨ps, name, hkeys, hname, rfl⟩ := h
  obtain ⟨keys, unique⟩ := val
  simp only [modelOf] at hkeys hname
  subst hkeys
  simp only [Option.some.injEq] at hname
  subst hname
  have hs : specKey ⟨.D ps, unique⟩ = joinKeys (ps.map token) := by
    simp [specKey]
  by_cases he : joinKeys (ps.map token) = ""
  · simp [existingKey, hs, he]
  · simp [existingKey, hs, he]

/-- Where the second call does create nothing: for desired indexes given by
ordered pairs, when the store lists every created index with its key fields
visited in pair order and under the name of its request, the second call of
Index with the same desired list builds the empty creation list. -/
theorem creationList_idempotent_in_pair_order (existing reported : List IndexDoc)
    (desired : List IndexSpec) (created : List IndexModel)
    (ho : ∀ val ∈ desired, val.ordered = true)
    (h1 : creationList existing desired = some created)
    (hr : List.Forall₂ reportsInPairOrder created reported) :
    creationList (existing ++ reported) desired = some [] := by
  have hu : ∀ val ∈ desired, val.uniqueIsBool = true := by
    intro val hv
    have := ho val hv
    simp [IndexSpec.ordered] at this
    exact this.2
  cases hidx : listIndexes existing [] with
  | none => simp [creationList, hidx] at h1
  | some idx =>
    simp only [creationList, hidx] at h1
    rw [newIndexes_eq_filter idx desired hu []] at h1
    simp only [List.nil_append, Option.some.injEq] at h1
    subst h1
    have left : ∀ (l1 : List IndexModel) (l2 : List IndexDoc),
        List.Forall₂ reportsInPairOrder l1 l2 →
        ∀ m ∈ l1, ∃ doc ∈ l2, reportsInPairOrder m doc := by
      intro l1 l2 h
      induction h with
      | nil => intro m hm; cases hm
      | cons hab _ ih =>
        intro m hm
        rcases List.mem_cons.mp hm with rfl | hm
        · exact ⟨_, List.mem_cons_self _ _, hab⟩
        · obtain ⟨doc, hd, hdoc⟩ := ih m hm
          exact ⟨doc, List.mem_cons_of_mem _ hd, hdoc⟩
    have right : ∀ (l1 : List IndexModel) (l2 : List IndexDoc),
        List.Forall₂ reportsInPairOrder l1 l2 →
        ∀ doc ∈ l2, ∃ m ∈ l1, reportsInPairOrder m doc := by
      intro l1 l2 h
      induction h with
      | nil => intro doc hd; cases hd
      | cons hab _ ih =>
        intro doc hd
        rcases List.mem_cons.mp hd with rfl | hd
        · exact ⟨_, List.mem_cons_self _ _, hab⟩
        · obtain ⟨m, hm, hdoc⟩ := ih doc hd
          exact ⟨m, List.mem_cons_of_mem _ hm, hdoc⟩
    have hdocs : ∀ doc ∈ reported, ∃ k, existingKey doc = some k := by
      intro doc hd
      obtain ⟨m, hm, hdoc⟩ := right _ _ hr doc hd
      obtain ⟨val, hval, rfl⟩ := List.mem_map.mp hm
      exact ⟨specKey val,
        existingKey_of_report val doc hdoc (ho val (List.mem_of_mem_filter hval))⟩
    obtain ⟨l, hl, hmem⟩ := listIndexes_mem reported idx hdocs
    have hcover : ∀ val ∈ desired, specKey val ∈ l := by
      intro val hval
      rw [hmem]
      by_cases hin : specKey val ∈ idx
      · exact Or.inl hin
      · have hf : val ∈ desired.filter fun val => decide (specKey val ∉ idx) :=
          List.mem_filter.mpr ⟨hval, decide_eq_true hin⟩
        obtain ⟨doc, hd, hdoc⟩ := left _ _ hr (modelOf val) (List.mem_map_of_mem _ hf)
        exact Or.inr ⟨doc, hd, existingKey_of_report val doc hdoc (ho val hval)⟩
    simp only [creationList, listIndexes_append, hidx, Option.some_bind, hl,
      newIndexes_eq_filter l desired hu [], List.nil_append, Option.some.injEq,
      List.map_eq_nil_iff, List.filter_eq_nil_iff]
    intro val hval
    simpa using hcover val hval

/-! ## Collection.Index: the claims -/

/-- C1, as stated, fails: for the desired list [A:1, A:1] against no existing
index the creation list holds two requests named A:1, not one. -/
theorem newIndexes_duplicate_not_collapsed :
    newIndexes [] [specA, specA] []
        = some [⟨.D [("A", .int 1)], ⟨some "A:1", none⟩⟩,
                ⟨.D [("A", .int 1)], ⟨some "A:1", none⟩⟩] ∧
      ¬ ∃ l, newIndexes [] [specA, specA] [] = some l ∧
          (l.filter fun m => decide (m.Options.Name = some "A:1")).length = 1 := by
  have h : newIndexes [] [specA, specA] []
      = some [⟨.D [("A", .int 1)], ⟨some "A:1", none⟩⟩,
              ⟨.D [("A", .int 1)], ⟨some "A:1", none⟩⟩] := by decide
  refine ⟨h, ?_⟩
  rintro ⟨l, hl, hc⟩
  rw [h] at hl
  cases hl
  revert hc
  decide

/-- C1, amended: Index does not collapse duplicates.  For every desired list
whose unique entries, when present, are booleans, and every key that is not a
key of an existing index, the creation list is built and holds exactly as many
requests named by that key as the desired list has indexes with that key: one
request per occurrence. -/
theorem newIndexes_one_request_per_occurrence (indexes : List String)
    (desired : List IndexSpec) (key : String)
    (hu : ∀ val ∈ desired, val.uniqueIsBool = true) (hk : key ∉ indexes) :
    ∃ l, newIndexes indexes desired [] = some l ∧
      (l.filter fun m => decide (m.Options.Name = some key)).length
        = (desired.filter fun val => decide (specKey val = key)).length := by
  refine ⟨_, newIndexes_eq_filter indexes desired hu [], ?_⟩
  simp only [List.nil_append]
  clear hu
  induction desired with
  | nil => simp
  | cons val rest ih =>
    by_cases he : specKey val = key
    · have hd : decide (specKey val ∉ indexes) = true :=
        decide_eq_true (he ▸ hk)
      have hn : decide (specKey val = key) = true := decide_eq_true he
      have hm : decide ((modelOf val).Options.Name = some key) = true :=
        decide_eq_true (by simp [modelOf, he])
      simp only [List.filter_cons, hd, hn, hm, if_true, List.map_cons,
        List.length_cons, ih]
    · by_cases hv : specKey val ∈ indexes
      · simpa [List.filter_cons, hv, he] using ih
      · simpa [List.filter_cons, hv, he, modelOf] using ih

/-- The amended C1 at the example of the specification: two requests. -/
theorem newIndexes_one_request_per_occurrence_witness :
    ∃ l, newIndexes [] [specA, specA] [] = some l ∧
      (l.filter fun m => decide (m.Options.Name = some "A:1")).length
        = ([specA, specA].filter fun val => decide (specKey val = "A:1")).length :=
  newIndexes_one_request_per_occurrence [] [specA, specA] "A:1"
    (by decide) (by decide)

/-- C2: for every set of existing keys and every desired list of indexes given
by ordered (field, direction) pairs whose unique entry, when present, is a
boolean, the creation list is, in desired order, the request of every desired
index whose canonical key is not an existing key; the request carries the key
list, the canonical key as its name and unique set exactly when the index has
unique present and true. -/
theorem newIndexes_ordered (indexes : List String) (desired : List IndexSpec)
    (h : ∀ val ∈ desired, val.ordered = true) :
    newIndexes indexes desired []
      = some ((desired.filter fun val =>
          decide (canonicalKey val.pairs ∉ indexes)).map request) := by
  have hu : ∀ val ∈ desired, val.uniqueIsBool = true := by
    intro val hv
    have := h val hv
    simp [IndexSpec.ordered] at this
    exact this.2
  rw [newIndexes_eq_filter indexes desired hu []]
  simp only [List.nil_append]
  clear hu
  induction desired with
  | nil => simp
  | cons val rest ih =>
    have hv := modelOf_ordered val (h val (List.mem_cons_self val rest))
    have hr : ∀ x ∈ rest, x.ordered = true :=
      fun x hx => h x (List.mem_cons_of_mem val hx)
    have ih := ih hr
    simp only [Option.some.injEq] at ih ⊢
    by_cases hk : canonicalKey val.pairs ∈ indexes
    · simpa [List.filter_cons, hv.1, hk] using ih
    · simpa [List.filter_cons, hv.1, hv.2, hk] using ih

/-- C2 at the example of the specification: with A:1 existing, the desired
list [A:1, (B:1, C:-1, unique)] yields only the request B:1_C:-1 with unique
set. -/
theorem newIndexes_ordered_witness :
    newIndexes ["A:1"] [specA, specBC] [] = some [requestBC] :=
  (newIndexes_ordered ["A:1"] [specA, specBC] (by decide)).trans (by decide)

/-- C3 fails on the code: a second call recreates an index of two fields.
With A:1 existing, the first call builds the request B:1_C:-1.  The store
then lists the created index with the same two key fields and the same name;
the range statement over the decoded key map visits C before B, the recorded
key is C:-1_B:1, and the second call with the same desired list builds the
request B:1_C:-1 again. -/
theorem creationList_second_call_recreates :
    creationList [docA] [specA, specBC] = some [requestBC] ∧
      List.Perm [(("C" : String), Scalar.int (-1)), ("B", Scalar.int 1)]
        [("B", Scalar.int 1), ("C", Scalar.int (-1))] ∧
      listIndexes [docA, docBC] [] = some ["A:1", "C:-1_B:1"] ∧
      creationList [docA, docBC] [specA, specBC] = some [requestBC] := by
  refine ⟨by decide, List.Perm.swap _ _ _, by decide, by decide⟩

/-! ## decode: the claims -/

/-- C4 fails on the code: the slice holds 7, the first document decodes to 10
and the second document does not decode.  decode returns the error, and the
slice of the caller is left as 7, 10: the original contents extended by the
item decoded before the failure. -/
theorem decode_failure_keeps_decoded_items :
    decode sampleUnmarshal ⟨[1, 0], none, false⟩
        (.ptr (.concrete (.basic (.slice [7]))))
      = ⟨.error (.driver 99), ⟨[], none, true⟩,
          .ptr (.concrete (.basic (.slice [7, 10])))⟩ := by
  decide

/-- C5 fails on the code: the slice holds 7 and 8 and the stream has one
document, which decodes to 10.  decode returns nil and leaves the slice
holding the single element 7, an element it held before the call, and not the
decoded element 10. -/
theorem decode_success_keeps_stale_elements :
    decode sampleUnmarshal ⟨[1], none, false⟩
        (.ptr (.concrete (.basic (.slice [7, 8]))))
      = ⟨.ok, ⟨[], none, true⟩, .ptr (.concrete (.basic (.slice [7])))⟩ := by
  decide

/-- C6: for every pointer to a slice, holding any elements, decode of a stream
of zero documents whose terminal error is unset returns nil and leaves the
slice empty. -/
theorem decode_empty_stream {D E α : Type} (unmarshal : D → Except E α)
    (closed : Bool) (xs : List α) :
    decode unmarshal ⟨[], none, closed⟩ (.ptr (.concrete (.basic (.slice xs))))
      = ⟨.ok, ⟨[], none, true⟩, .ptr (.concrete (.basic (.slice [])))⟩ := by
  simp [decode, ValueOf, Value.Kind, Value.Elem, Var.Kind, GoValue.Kind,
    Basic.Kind, Value.CanSet, Value.elems, decodeLoop, Target.setElem,
    Cursor.Close]

/-- C7: for every target that is not a pointer to a slice nor a pointer to an
interface holding a slice, and for every cursor, decode returns one of its two
invalid target errors, and leaves the cursor (no document consumed) and the
target as they were. -/
theorem decode_invalid_target {D E α : Type} (unmarshal : D → Except E α)
    (cur : Cursor D E) (results : Target α)
    (h : results.pointsToSlice = false) :
    (∃ k, (decode unmarshal cur results).outcome = .error (.notPointer k) ∨
        (decode unmarshal cur results).outcome = .error (.pointerTo k)) ∧
      (decode unmarshal cur results).cursor = cur ∧
      (decode unmarshal cur results).target = results := by
  have key : ∃ k,
      decode unmarshal cur results = ⟨.error (.notPointer k), cur, results⟩ ∨
      decode unmarshal cur results = ⟨.error (.pointerTo k), cur, results⟩ := by
    rcases results with _ | b | _ | x
    · exact ⟨.Invalid, Or.inl (by simp [decode, ValueOf, Value.Kind])⟩
    · cases b with
      | slice xs =>
        exact ⟨.Slice, Or.inl (by simp [decode, ValueOf, Value.Kind, Basic.Kind])⟩
      | plain k r =>
        have hk := PlainKind.toKind_ne_ptr k
        exact ⟨k.toKind,
          Or.inl (by simp [decode, ValueOf, Value.Kind, Basic.Kind, hk])⟩
    · exact ⟨.Invalid, Or.inr (by simp [decode, ValueOf, Value.Kind, Value.Elem])⟩
    · cases x with
      | concrete v =>
        cases v with
        | basic b =>
          cases b with
          | slice xs => simp [Target.pointsToSlice] at h
          | plain k r =>
            have h1 := PlainKind.toKind_ne_interface k
            have h2 := PlainKind.toKind_ne_slice k
            exact ⟨k.toKind, Or.inr (by
              simp [decode, ValueOf, Value.Kind, Value.Elem, Var.Kind,
                GoValue.Kind, Basic.Kind, h1, h2])⟩
        | pointer a =>
          exact ⟨.Ptr, Or.inr (by
            simp [decode, ValueOf, Value.Kind, Value.Elem, Var.Kind,
              GoValue.Kind])⟩
      | iface dyn =>
        cases dyn with
        | none =>
          exact ⟨.Invalid, Or.inr (by
            simp [decode, ValueOf, Value.Kind, Value.Elem, Var.Kind])⟩
        | some v =>
          cases v with
          | basic b =>
            cases b with
            | slice xs => simp [Target.pointsToSlice] at h
            | plain k r =>
              have h2 := PlainKind.toKind_ne_slice k
              exact ⟨k.toKind, Or.inr (by
                simp [decode, ValueOf, Value.Kind, Value.Elem, Var.Kind,
                  GoValue.Kind, Basic.Kind, h2])⟩
          | pointer a =>
            exact ⟨.Ptr, Or.inr (by
              simp [decode, ValueOf, Value.Kind, Value.Elem, Var.Kind,
                GoValue.Kind])⟩
  obtain ⟨k, hk | hk⟩ := key
  · rw [hk]
    exact ⟨⟨k, Or.inl rfl⟩, rfl, rfl⟩
  · rw [hk]
    exact ⟨⟨k, Or.inr rfl⟩, rfl, rfl⟩

/-- C7 at a pointer to a single struct: the two documents of the cursor stay
unconsumed, the cursor and the struct are as before. -/
theorem decode_invalid_target_witness :
    (∃ k, (decode sampleUnmarshal ⟨[1, 2], none, false⟩
          (.ptr (.concrete (.basic (.plain .Struct 7))))).outcome
            = .error (.notPointer k) ∨
        (decode sampleUnmarshal ⟨[1, 2], none, false⟩
          (.ptr (.concrete (.basic (.plain .Struct 7))))).outcome
            = .error (.pointerTo k)) ∧
      (decode sampleUnmarshal ⟨[1, 2], none, false⟩
          (.ptr (.concrete (.basic (.plain .Struct 7))))).cursor
        = ⟨[1, 2], none, false⟩ ∧
      (decode sampleUnmarshal ⟨[1, 2], none, false⟩
          (.ptr (.concrete (.basic (.plain .Struct 7))))).target
        = .ptr (.concrete (.basic (.plain .Struct 7))) :=
  decode_invalid_target sampleUnmarshal ⟨[1, 2], none, false⟩
    (.ptr (.concrete (.basic (.plain .Struct 7)))) (by decide)

/-- C8 fails on the code: decode rejects a pointer to a single struct before
its defer statement is reached and returns with the cursor still open. -/
theorem decode_invalid_target_leaves_cursor_open :
    decode sampleUnmarshal ⟨[1, 2], none, false⟩
        (.ptr (.concrete (.basic (.plain .Struct 7))))
      = ⟨.error (.pointerTo .Struct), ⟨[1, 2], none, false⟩,
          .ptr (.concrete (.basic (.plain .Struct 7)))⟩ ∧
      (decode sampleUnmarshal ⟨[1, 2], none, false⟩
        (.ptr (.concrete (.basic (.plain .Struct 7))))).cursor.closed = false := by
  decide

/-- C10 fails on the code: the target is a pointer to an interface holding an
empty slice and the stream has one document, which decodes.  The call of Set
on the value taken out of the interface panics; the interface still holds the
empty slice. -/
theorem decode_interface_target_panics :
    decode sampleUnmarshal ⟨[1], none, false⟩
        (.ptr (.iface (some (.basic (.slice [])))))
      = ⟨.panic, ⟨[], none, true⟩, .ptr (.iface (some (.basic (.slice []))))⟩ := by
  decide

/-! ## Collection.Count: the claim -/

/-- C9: for every filter (nil, empty or not) and all options, when the count
operation of the store returns an error Count returns 0, and when it returns
the value v without error Count returns v. -/
theorem Count_never_fails {V Opts E : Type}
    (CountDocuments : List (String × V) → Opts → Int × Option E)
    (filter : Option (List (String × V))) (opts : Opts) :
    (∀ v e, CountDocuments (filter.getD []) opts = (v, some e) →
        Count CountDocuments filter opts = 0) ∧
      (∀ v, CountDocuments (filter.getD []) opts = (v, none) →
        Count CountDocuments filter opts = v) := by
  have hf : (match filter with
      | none => []
      | some f => f) = filter.getD [] := by
    cases filter <;> rfl
  constructor
  · intro v e h
    simp only [Count, hf, h]
  · intro v h
    simp only [Count, hf, h]

end Mongo
